import Mathlib

/-!
Verification development for the convex-backend excerpt: the text-index
compaction engine, the isolate crypto random ops, and the module model
authorization checks.

The compaction engine (SearchIndexCompactor, CompactionConfig and the segment
selector) is exercised by the tests in
crates/database/src/text_index_worker/compactor.rs, but its implementation is
not part of this excerpt, so the engine is modelled from the specification
(sections 3, 4, 6, 7, 8). The crypto ops and the module model are translated
from crates/isolate/src/ops/crypto/mod.rs and crates/model/src/modules/mod.rs.
-/

namespace Compaction

/-- Modelled from the spec: a stored segment (section 3), with unique id, byte
size and document count. Creation order is the position in the segment list of
its index, oldest first. -/
structure Segment where
  sid : Nat
  byte_size : Nat
  doc_count : Nat
deriving DecidableEq, Repr

/-- Modelled from the spec: index lifecycle state (section 3). -/
inductive IndexState where
  | disabled
  | backfilling
  | enabled
deriving DecidableEq, Repr

/-- Modelled from the spec: one full-text index (section 3), with its segments
listed in creation order, oldest first. -/
structure SearchIndex where
  name : String
  state : IndexState
  segments : List Segment
deriving DecidableEq, Repr

/-- Modelled from the spec: the compaction thresholds (section 3); the
CompactionConfig of the search compactor, which is missing from the excerpt. -/
structure CompactionConfig where
  min_compaction_segments : Nat
  small_segment_threshold_bytes : Nat
  max_segment_size_bytes : Nat
deriving DecidableEq, Repr

/-- Modelled from the spec: the configuration error (section 7). -/
inductive ConfigError where
  | zeroMinCompactionSegments
deriving DecidableEq, Repr

/-- Modelled from the spec: checked construction of a CompactionConfig
(section 7): min_compaction_segments of zero is rejected; no other cross-field
validation is performed (section 6). -/
def CompactionConfig.validate (minSeg thr maxB : Nat) :
    Except ConfigError CompactionConfig :=
  if minSeg = 0 then Except.error ConfigError.zeroMinCompactionSegments
  else Except.ok ⟨minSeg, thr, maxB⟩

/-- Sum of a numeric attribute over a segment list. -/
def sumBy (f : Segment → Nat) (l : List Segment) : Nat := (l.map f).sum

def isSmallSegment (cfg : CompactionConfig) (s : Segment) : Bool :=
  decide (s.byte_size < cfg.small_segment_threshold_bytes)

def isLargeSegment (cfg : CompactionConfig) (s : Segment) : Bool :=
  decide (cfg.small_segment_threshold_bytes ≤ s.byte_size)

/-- Modelled from the spec: tier S (section 4.1 step 1). -/
def tierSmall (cfg : CompactionConfig) (segs : List Segment) : List Segment :=
  segs.filter (isSmallSegment cfg)

/-- Modelled from the spec: tier L (section 4.1 step 1). -/
def tierLarge (cfg : CompactionConfig) (segs : List Segment) : List Segment :=
  segs.filter (isLargeSegment cfg)

/-- Modelled from the spec: greedy accumulation within a tier (section 4.1
step 2): walk the tier oldest first and accumulate segments into the batch
while the running total plus the next byte size stays within the cap; the
first segment that would exceed the cap closes the batch. -/
def greedyBatch (maxB : Nat) : Nat → List Segment → List Segment
  | _, [] => []
  | total, s :: rest =>
    if total + s.byte_size ≤ maxB then
      s :: greedyBatch maxB (total + s.byte_size) rest
    else []

/-- Modelled from the spec: batch selection for one tier (section 4.1 steps 2
and 3, section 9): at most one batch per tier per step, the oldest-first
greedy batch, kept only when it holds at least min_compaction_segments
segments; a shorter batch is discarded. -/
def selectTierBatch (cfg : CompactionConfig) (tier : List Segment) :
    Option (List Segment) :=
  let b := greedyBatch cfg.max_segment_size_bytes 0 tier
  if cfg.min_compaction_segments ≤ b.length then some b else none

/-- Modelled from the spec: the merger (section 4.2): exactly one new segment
whose document count is the sum of the document counts of the sources. The
byte size is whatever storage reports on write; it is modelled as the sum of
the input byte sizes. -/
def mergeSegments (newId : Nat) (batch : List Segment) : Segment :=
  ⟨newId, sumBy Segment.byte_size batch, sumBy Segment.doc_count batch⟩

/-- Remove the first `k` elements satisfying `p`, keeping everything else. -/
def removeFirstMatching (p : Segment → Bool) : Nat → List Segment → List Segment
  | _, [] => []
  | 0, l => l
  | k + 1, s :: rest =>
    if p s then removeFirstMatching p k rest
    else s :: removeFirstMatching p (k + 1) rest

/-- Modelled from the spec: committer effect on the segment list of one index
(section 4.3): the segments of the batch (the oldest `batch.length` segments
of the tier selected by `p`) are swapped for the one merged segment, which is
appended as the newest segment. -/
def applyTierBatch (p : Segment → Bool) (newId : Nat)
    (segs batch : List Segment) : List Segment :=
  removeFirstMatching p batch.length segs ++ [mergeSegments newId batch]

/-- Modelled from the spec: one coordination step over the segment list of one
index (section 4.4 steps 2 and 3): both tier batches are selected from the
list read at the start of the step, then each eligible batch is merged and
committed. Returns the new segment list and the number of segments merged. -/
def stepSegments (cfg : CompactionConfig) (fresh : Nat) (segs : List Segment) :
    List Segment × Nat :=
  let afterSmall :=
    match selectTierBatch cfg (tierSmall cfg segs) with
    | some b => (applyTierBatch (isSmallSegment cfg) fresh segs b, b.length)
    | none => (segs, 0)
  let afterLarge :=
    match selectTierBatch cfg (tierLarge cfg segs) with
    | some b =>
      (applyTierBatch (isLargeSegment cfg) (fresh + 1) afterSmall.1 b, b.length)
    | none => (afterSmall.1, 0)
  (afterLarge.1, afterSmall.2 + afterLarge.2)

/-- Modelled from the spec: per-index step (section 4.4): disabled indexes are
skipped (no stored content to compact); enabled and backfilling indexes are
compacted alike. -/
def stepIndex (cfg : CompactionConfig) (fresh : Nat) (idx : SearchIndex) :
    SearchIndex × Nat :=
  match idx.state with
  | IndexState.disabled => (idx, 0)
  | IndexState.backfilling =>
    let r := stepSegments cfg fresh idx.segments
    ({ idx with segments := r.1 }, r.2)
  | IndexState.enabled =>
    let r := stepSegments cfg fresh idx.segments
    ({ idx with segments := r.1 }, r.2)

/-- Modelled from the spec: sequential processing of the indexes of one step
(section 4.4 step 4): an index with zero merged segments contributes no
metrics entry. -/
def stepAll (cfg : CompactionConfig) (fresh : Nat) :
    List SearchIndex → List SearchIndex × List (String × Nat)
  | [] => ([], [])
  | idx :: rest =>
    let r := stepIndex cfg fresh idx
    let rr := stepAll cfg (fresh + 2) rest
    (r.1 :: rr.1, if r.2 = 0 then rr.2 else (idx.name, r.2) :: rr.2)

/-- Modelled from the spec: `step()` (section 4.4): the coordinator processes
each index once and returns the aggregated metrics, an ordered mapping from
resolved index name to count of segments merged. -/
def step (cfg : CompactionConfig) (fresh : Nat) (indexes : List SearchIndex) :
    List SearchIndex × List (String × Nat) :=
  stepAll cfg fresh indexes

/-- The greedy batch of a tier is a prefix of the tier, its cumulative byte
size stays within the cap, and the next tier segment after it, if any, would
push the running total past the cap. -/
def GreedyBatchSpec (maxB : Nat) (tier : List Segment) : Prop :=
  (∃ r, tier = greedyBatch maxB 0 tier ++ r) ∧
  sumBy Segment.byte_size (greedyBatch maxB 0 tier) ≤ maxB ∧
  (∀ x r, tier = greedyBatch maxB 0 tier ++ x :: r →
    maxB < sumBy Segment.byte_size (greedyBatch maxB 0 tier) + x.byte_size)

end Compaction

namespace CryptoOps

/-- A random byte stream: the i-th byte drawn from the rng, as a value below
256. This stands for the rand rng that fills byte buffers in
crates/isolate/src/ops/crypto/mod.rs. -/
def byteOf (rng : Nat → Nat) (i : Nat) : Nat := rng i % 256

/-- Translation of CryptoOps::get_random_values
(crates/isolate/src/ops/crypto/mod.rs): ensure that byte_length does not
exceed 65536, then fill a buffer of byte_length random bytes. -/
def get_random_values (rng : Nat → Nat) (byte_length : Nat) :
    Except String (List Nat) :=
  if byte_length ≤ 65536 then
    Except.ok ((List.range byte_length).map (byteOf rng))
  else Except.error "byte_length must be at most 65536"

/-- Translation of uuid Builder with_version as used by
CryptoOps::random_uuid: byte 6 keeps its low nibble and gets the version in
the high nibble. -/
def withVersion (bytes : List Nat) (ver : Nat) : List Nat :=
  bytes.set 6 (bytes.getD 6 0 % 16 + ver * 16)

/-- Translation of CryptoOps::random_uuid
(crates/isolate/src/ops/crypto/mod.rs): fill 16 random bytes, stamp version 4
(Random), and return the uuid; the function is infallible. -/
def random_uuid (rng : Nat → Nat) : Except String (List Nat) :=
  Except.ok (withVersion ((List.range 16).map (byteOf rng)) 4)

end CryptoOps

namespace Modules

/-- A canonicalized module path, reduced to the attributes the module model
reads: a name for identity, whether the path sits under the _system/
directory and whether it sits under the _deps/ directory. -/
structure ModulePath where
  name : String
  is_system : Bool
  is_deps : Bool
deriving DecidableEq, Repr

/-- Execution environment of a module (common::types::ModuleEnvironment). -/
inductive ModuleEnvironment where
  | isolate
  | node
deriving DecidableEq, Repr

/-- Analysis output for a module; its content is irrelevant here. -/
structure AnalyzedModule where
  tag : Nat
deriving DecidableEq, Repr

/-- config::types::ModuleConfig: one module pushed by the client. -/
structure ModuleConfig where
  path : ModulePath
  source : String
  source_map : Option String
  environment : ModuleEnvironment
deriving DecidableEq, Repr

/-- modules::types::ModuleMetadata. -/
structure ModuleMetadata where
  path : ModulePath
  latest_version : Nat
  source_package_id : Option Nat
  environment : ModuleEnvironment
  analyze_result : Option AnalyzedModule
deriving DecidableEq, Repr

/-- modules::module_versions::ModuleVersionMetadata. -/
structure ModuleVersionMetadata where
  module_id : Nat
  source : String
  source_map : Option String
  version : Option Nat
deriving DecidableEq, Repr

/-- The caller identity, reduced to the two predicates the module model
consults. -/
structure Identity where
  is_admin : Bool
  is_system : Bool
deriving DecidableEq, Repr

/-- The transaction-visible state of the _modules and _module_versions
tables: document id paired with document, plus an id allocator. -/
structure DbState where
  modules : List (Nat × ModuleMetadata)
  module_versions : List (Nat × ModuleVersionMetadata)
  next_id : Nat
deriving DecidableEq, Repr

/-- ModuleModel::module_metadata: query the by_path index of _modules for at
most one document with the given path. -/
def module_metadata (st : DbState) (path : ModulePath) :
    Option (Nat × ModuleMetadata) :=
  st.modules.find? (fun e => decide (e.2.path = path))

/-- ModuleModel::get_version: query the by_module_and_version index of
_module_versions by module id, expect at most one document, and ensure its
version matches. -/
def get_version (st : DbState) (module_id : Nat) (version : Nat) :
    Except String (Nat × ModuleVersionMetadata) :=
  match st.module_versions.filter (fun e => decide (e.2.module_id = module_id)) with
  | [] => Except.error "Dangling module version reference"
  | [v] =>
    if v.2.version = some version then Except.ok v
    else Except.error "module version does not match"
  | _ :: _ :: _ => Except.error "expected at most one document"

def insertModule (st : DbState) (m : ModuleMetadata) : DbState × Nat :=
  ({ st with
      modules := st.modules ++ [(st.next_id, m)],
      next_id := st.next_id + 1 }, st.next_id)

def insertVersion (st : DbState) (v : ModuleVersionMetadata) : DbState × Nat :=
  ({ st with
      module_versions := st.module_versions ++ [(st.next_id, v)],
      next_id := st.next_id + 1 }, st.next_id)

def replaceModule (st : DbState) (mid : Nat) (m : ModuleMetadata) : DbState :=
  { st with
      modules := st.modules.map (fun e => if e.1 = mid then (mid, m) else e) }

def deleteVersionDoc (st : DbState) (vid : Nat) : DbState :=
  { st with
      module_versions := st.module_versions.filter (fun e => decide (e.1 ≠ vid)) }

def deleteModuleDoc (st : DbState) (mid : Nat) : DbState :=
  { st with
      modules := st.modules.filter (fun e => decide (e.1 ≠ mid)) }

/-- ModuleModel::put_module_metadata (crates/model/src/modules/mod.rs): if a
module document exists at the path, look up its previous version document
(which can fail), replace the metadata and delete the previous version
document; otherwise insert fresh metadata at version 0. Errors return the
state as written so far. -/
def put_module_metadata (st : DbState) (path : ModulePath)
    (source_package_id : Option Nat) (analyze_result : Option AnalyzedModule)
    (environment : ModuleEnvironment) :
    DbState × Except String (Nat × Nat) :=
  match module_metadata st path with
  | some (mid, meta) =>
    match get_version st mid meta.latest_version with
    | Except.error e => (st, Except.error e)
    | Except.ok (vid, _) =>
      let latest := meta.latest_version + 1
      let st1 := replaceModule st mid
        ⟨path, latest, source_package_id, environment, analyze_result⟩
      let st2 := deleteVersionDoc st1 vid
      (st2, Except.ok (mid, latest))
  | none =>
    let r := insertModule st
      ⟨path, 0, source_package_id, environment, analyze_result⟩
    (r.1, Except.ok (r.2, 0))

/-- ModuleModel::put_module_source_into_db: insert the new version document
into _module_versions. The value-size remap concerns the value layer and is
not modelled. -/
def put_module_source_into_db (st : DbState) (module_id version : Nat)
    (source : String) (source_map : Option String) :
    DbState × Except String Unit :=
  ((insertVersion st ⟨module_id, source, source_map, some version⟩).1,
    Except.ok ())

/-- Translation of ModuleModel::put (crates/model/src/modules/mod.rs): the
identity must be admin or system, the path must not be under _system/, a
non-dependency module must come with an analyze result; then the metadata and
the version document are written. -/
def put (st : DbState) (identity : Identity) (path : ModulePath)
    (source : String) (source_package_id : Option Nat)
    (source_map : Option String) (analyze_result : Option AnalyzedModule)
    (environment : ModuleEnvironment) : DbState × Except String Unit :=
  if !(identity.is_admin || identity.is_system) then
    (st, Except.error "unauthorized put_module")
  else if path.is_system then
    (st, Except.error "You cannot push a function under _system/")
  else if !(path.is_deps || analyze_result.isSome) then
    (st, Except.error "AnalyzedModule is required for non-dependency modules")
  else
    match put_module_metadata st path source_package_id analyze_result
        environment with
    | (st1, Except.error e) => (st1, Except.error e)
    | (st1, Except.ok (mid, ver)) =>
      put_module_source_into_db st1 mid ver source source_map

/-- Translation of ModuleModel::delete (crates/model/src/modules/mod.rs):
identity check first, then, when the module exists, delete its metadata
document and the latest version document. -/
def delete (st : DbState) (identity : Identity) (path : ModulePath) :
    DbState × Except String Unit :=
  if !(identity.is_admin || identity.is_system) then
    (st, Except.error "unauthorized delete_module")
  else
    match module_metadata st path with
    | none => (st, Except.ok ())
    | some (mid, meta) =>
      let st1 := deleteModuleDoc st mid
      match get_version st1 mid meta.latest_version with
      | Except.error e => (st1, Except.error e)
      | Except.ok (vid, _) => (deleteVersionDoc st1 vid, Except.ok ())

/-- ModuleModel::get_all_metadata: full table scan of _modules. -/
def get_all_metadata (st : DbState) : List (Nat × ModuleMetadata) :=
  st.modules

/-- ModuleModel::get_application_metadata: all modules whose path is not
under _system/. -/
def get_application_metadata (st : DbState) : List (Nat × ModuleMetadata) :=
  (get_all_metadata st).filter (fun e => !e.2.path.is_system)

def lookupAnalyze (ar : List (ModulePath × AnalyzedModule)) (p : ModulePath) :
    Option AnalyzedModule :=
  (ar.find? (fun e => decide (e.1 = p))).map (fun e => e.2)

def removeAnalyze (ar : List (ModulePath × AnalyzedModule)) (p : ModulePath) :
    List (ModulePath × AnalyzedModule) :=
  ar.filter (fun e => decide (e.1 ≠ p))

/-- The delete loop at the end of ModuleModel::apply: the remaining modules
are deleted one by one; the first error stops the loop. -/
def deleteAll (identity : Identity) :
    List ModulePath → DbState → DbState × Except String Unit
  | [], st => (st, Except.ok ())
  | p :: rest, st =>
    match delete st identity p with
    | (st1, Except.error e) => (st1, Except.error e)
    | (st1, Except.ok _) => deleteAll identity rest st1

/-- The module loop of ModuleModel::apply: track the not-yet-seen existing
module paths and the added paths, take the analyze result for non-dependency
modules (an error when missing), and put each module; then delete whatever
path remains. Paths are modelled as already canonicalized. -/
def applyModules (identity : Identity) (source_package_id : Option Nat) :
    List ModuleConfig → List ModulePath → List ModulePath →
    List (ModulePath × AnalyzedModule) → DbState →
    DbState × Except String (List ModulePath × List ModulePath)
  | [], remaining, added, _, st =>
    match deleteAll identity remaining st with
    | (st1, Except.error e) => (st1, Except.error e)
    | (st1, Except.ok _) => (st1, Except.ok (added, remaining))
  | m :: rest, remaining, added, analyze_results, st =>
    let path := m.path
    let keep := remaining.contains path
    let remaining1 := if keep then remaining.erase path else remaining
    let added1 := if keep then added else added ++ [path]
    let astep : Except String
        (Option AnalyzedModule × List (ModulePath × AnalyzedModule)) :=
      if path.is_deps then Except.ok (none, analyze_results)
      else
        match lookupAnalyze analyze_results path with
        | none => Except.error "Missing analyze result for module"
        | some a => Except.ok (some a, removeAnalyze analyze_results path)
    match astep with
    | Except.error e => (st, Except.error e)
    | Except.ok (aopt, ar1) =>
      match put st identity path m.source source_package_id m.source_map aopt
          m.environment with
      | (st1, Except.error e) => (st1, Except.error e)
      | (st1, Except.ok _) =>
        applyModules identity source_package_id rest remaining1 added1 ar1 st1

/-- Translation of ModuleModel::apply (crates/model/src/modules/mod.rs): bail
out when any pushed path is under _system/, collect the existing application
module paths, then run the module loop and the delete loop, returning the
diff of added and removed paths. -/
def apply (st : DbState) (identity : Identity) (modules : List ModuleConfig)
    (source_package_id : Option Nat)
    (analyze_results : List (ModulePath × AnalyzedModule)) :
    DbState × Except String (List ModulePath × List ModulePath) :=
  if modules.any (fun c => c.path.is_system) then
    (st, Except.error "You cannot push functions under the _system/ directory.")
  else
    applyModules identity source_package_id modules
      ((get_application_metadata st).map (fun e => e.2.path)) []
      analyze_results st

end Modules

namespace Compaction

@[simp]
lemma sumBy_nil (f : Segment → Nat) : sumBy f [] = 0 := rfl

@[simp]
lemma sumBy_cons (f : Segment → Nat) (s : Segment) (l : List Segment) :
    sumBy f (s :: l) = f s + sumBy f l := rfl

@[simp]
lemma sumBy_append (f : Segment → Nat) (a b : List Segment) :
    sumBy f (a ++ b) = sumBy f a + sumBy f b := by
  simp [sumBy]

lemma greedyBatch_append_eq (maxB : Nat) (l : List Segment) :
    ∀ t, ∃ r, l = greedyBatch maxB t l ++ r := by
  induction l with
  | nil => intro t; exact ⟨[], rfl⟩
  | cons s rest ih =>
    intro t
    by_cases h : t + s.byte_size ≤ maxB
    · obtain ⟨r, hr⟩ := ih (t + s.byte_size)
      exact ⟨r, by simp [greedyBatch, h]; exact hr⟩
    · exact ⟨s :: rest, by simp [greedyBatch, h]⟩

lemma greedyBatch_length_le (maxB t : Nat) (l : List Segment) :
    (greedyBatch maxB t l).length ≤ l.length := by
  obtain ⟨r, hr⟩ := greedyBatch_append_eq maxB l t
  have h2 : l.length = (greedyBatch maxB t l).length + r.length := by
    conv_lhs => rw [hr]
    simp
  omega

lemma greedyBatch_take_eq (maxB t : Nat) (l : List Segment) :
    greedyBatch maxB t l = l.take (greedyBatch maxB t l).length := by
  obtain ⟨r, hr⟩ := greedyBatch_append_eq maxB l t
  calc greedyBatch maxB t l
      = (greedyBatch maxB t l ++ r).take (greedyBatch maxB t l).length := by
        rw [List.take_append_of_le_length (Nat.le_refl _), List.take_length]
    _ = l.take (greedyBatch maxB t l).length := by rw [← hr]

lemma greedyBatch_total_le (maxB : Nat) (l : List Segment) :
    ∀ t, t ≤ maxB → t + sumBy Segment.byte_size (greedyBatch maxB t l) ≤ maxB := by
  induction l with
  | nil => intro t ht; simpa [greedyBatch]
  | cons s rest ih =>
    intro t ht
    by_cases h : t + s.byte_size ≤ maxB
    · have := ih (t + s.byte_size) h
      simp only [greedyBatch, h, if_true, sumBy_cons]
      omega
    · simpa [greedyBatch, h]

lemma greedyBatch_next_exceeds (maxB : Nat) (l : List Segment) :
    ∀ t x r, l = greedyBatch maxB t l ++ x :: r →
      maxB < t + sumBy Segment.byte_size (greedyBatch maxB t l) + x.byte_size := by
  induction l with
  | nil => intro t x r h; simp [greedyBatch] at h
  | cons s rest ih =>
    intro t x r h
    by_cases hc : t + s.byte_size ≤ maxB
    · simp only [greedyBatch, hc, if_true] at h ⊢
      simp only [List.cons_append, List.cons.injEq] at h
      have := ih (t + s.byte_size) x r h.2
      simp only [sumBy_cons]
      omega
    · simp only [greedyBatch, hc, if_false, List.nil_append] at h ⊢
      have hx : x = s := by
        injection h with h1 _
        exact h1.symm
      subst hx
      simpa using Nat.lt_of_not_le hc

lemma greedyBatch_eq_self_of_total_le (maxB : Nat) (l : List Segment) :
    ∀ t, t + sumBy Segment.byte_size l ≤ maxB → greedyBatch maxB t l = l := by
  induction l with
  | nil => intro t _; rfl
  | cons s rest ih =>
    intro t ht
    simp only [sumBy_cons] at ht
    have h1 : t + s.byte_size ≤ maxB := by omega
    simp only [greedyBatch, h1, if_true]
    rw [ih (t + s.byte_size) (by omega)]

lemma greedyBatch_nil_of_zero_cap (l : List Segment)
    (hpos : ∀ s ∈ l, 0 < s.byte_size) : ∀ t, greedyBatch 0 t l = [] := by
  cases l with
  | nil => intro t; rfl
  | cons s rest =>
    intro t
    have hs : 0 < s.byte_size := hpos s (List.mem_cons_self s rest)
    have : ¬(t + s.byte_size ≤ 0) := by omega
    simp [greedyBatch, this]

@[simp]
lemma removeFirstMatching_zero (p : Segment → Bool) (l : List Segment) :
    removeFirstMatching p 0 l = l := by
  cases l <;> rfl

lemma removeFirstMatching_mem (p : Segment → Bool) (l : List Segment)
    (x : Segment) (hx : x ∈ l) (hp : p x = false) :
    ∀ k, x ∈ removeFirstMatching p k l := by
  induction l with
  | nil => cases hx
  | cons s rest ih =>
    intro k
    cases k with
    | zero => simpa using hx
    | succ m =>
      by_cases hs : p s
      · simp only [removeFirstMatching, hs, if_true]
        rcases List.mem_cons.mp hx with h | h
        · exact absurd (h ▸ hp) (by simp [hs])
        · exact ih h m
      · simp only [removeFirstMatching, hs, if_false]
        rcases List.mem_cons.mp hx with h | h
        · exact h ▸ List.mem_cons_self _ _
        · exact List.mem_cons_of_mem _ (ih h (m + 1))

lemma removeFirstMatching_all (p : Segment → Bool) (l : List Segment)
    (h : ∀ s ∈ l, p s = true) : removeFirstMatching p l.length l = [] := by
  induction l with
  | nil => rfl
  | cons s rest ih =>
    have hs := h s (List.mem_cons_self s rest)
    simp only [List.length_cons, removeFirstMatching, hs, if_true]
    exact ih fun x hx => h x (List.mem_cons_of_mem _ hx)

lemma removeFirstMatching_filter_disjoint (p q : Segment → Bool)
    (hdisj : ∀ s, q s = true → p s = false) (l : List Segment) :
    ∀ k, (removeFirstMatching p k l).filter q = l.filter q := by
  induction l with
  | nil => intro k; cases k <;> rfl
  | cons s rest ih =>
    intro k
    cases k with
    | zero => simp
    | succ m =>
      by_cases hs : p s
      · have hq : q s = false := by
          by_cases hqs : q s
          · exact absurd (hdisj s hqs) (by simp [hs])
          · simpa using hqs
        simp [removeFirstMatching, hs, hq, List.filter_cons, ih m]
      · have hs2 : p s = false := by simpa using hs
        simp only [removeFirstMatching, hs2]
        simp [List.filter_cons, ih (m + 1)]

lemma sumBy_filter_take_remove (f : Segment → Nat) (p : Segment → Bool)
    (l : List Segment) :
    ∀ k, k ≤ (l.filter p).length →
      sumBy f l
        = sumBy f ((l.filter p).take k) + sumBy f (removeFirstMatching p k l) := by
  induction l with
  | nil => intro k hk; simp at hk; simp [hk]
  | cons s rest ih =>
    intro k hk
    by_cases hs : p s
    · cases k with
      | zero => simp
      | succ m =>
        simp only [List.filter_cons, hs, if_true, List.length_cons] at hk
        have hm : m ≤ (rest.filter p).length := Nat.le_of_succ_le_succ hk
        simp only [List.filter_cons, hs, if_true, List.take_succ_cons,
          removeFirstMatching, sumBy_cons]
        rw [ih m hm]
        omega
    · have hs2 : p s = false := by simpa using hs
      cases k with
      | zero => simp
      | succ m =>
        simp only [List.filter_cons, hs2] at hk
        simp only [if_false, Bool.false_eq_true] at hk
        simp only [List.filter_cons, hs2, removeFirstMatching]
        simp only [if_false, Bool.false_eq_true, sumBy_cons]
        rw [ih (m + 1) hk]
        omega

lemma tier_length_partition (cfg : CompactionConfig) (l : List Segment) :
    (tierSmall cfg l).length + (tierLarge cfg l).length = l.length := by
  induction l with
  | nil => rfl
  | cons s rest ih =>
    simp only [tierSmall, tierLarge, List.filter_cons] at ih ⊢
    by_cases h : s.byte_size < cfg.small_segment_threshold_bytes
    · have h2 : ¬(cfg.small_segment_threshold_bytes ≤ s.byte_size) := by omega
      simp only [isSmallSegment, isLargeSegment] at ih ⊢
      simp [h, h2] at ih ⊢
      omega
    · have h2 : cfg.small_segment_threshold_bytes ≤ s.byte_size := by omega
      simp only [isSmallSegment, isLargeSegment] at ih ⊢
      simp [h, h2] at ih ⊢
      omega

lemma selectTierBatch_none_of_short (cfg : CompactionConfig)
    (tier : List Segment) (h : tier.length < cfg.min_compaction_segments) :
    selectTierBatch cfg tier = none := by
  have hle := greedyBatch_length_le cfg.max_segment_size_bytes 0 tier
  simp only [selectTierBatch]
  have : ¬(cfg.min_compaction_segments
      ≤ (greedyBatch cfg.max_segment_size_bytes 0 tier).length) := by omega
  simp [this]

lemma selectTierBatch_nil_none (cfg : CompactionConfig)
    (hmin : 1 ≤ cfg.min_compaction_segments) :
    selectTierBatch cfg [] = none := by
  simp only [selectTierBatch, greedyBatch, List.length_nil]
  rw [if_neg (by omega)]

/-- An index whose segments all sit in the small tier, fit the cap together
and reach the eligibility count is collapsed to the one merged segment. -/
lemma stepSegments_merge_all_small (cfg : CompactionConfig) (fresh : Nat)
    (segs : List Segment)
    (hmin : 1 ≤ cfg.min_compaction_segments)
    (helig : cfg.min_compaction_segments ≤ segs.length)
    (hsmall : ∀ s ∈ segs, s.byte_size < cfg.small_segment_threshold_bytes)
    (hsum : sumBy Segment.byte_size segs ≤ cfg.max_segment_size_bytes) :
    stepSegments cfg fresh segs = ([mergeSegments fresh segs], segs.length) := by
  have hts : tierSmall cfg segs = segs :=
    List.filter_eq_self.mpr fun s hs =>
      decide_eq_true (hsmall s hs)
  have htl : tierLarge cfg segs = [] :=
    List.filter_eq_nil_iff.mpr fun s hs => by
      simp only [isLargeSegment]
      have := hsmall s hs
      simp only [decide_eq_true_eq]
      omega
  have hgb : greedyBatch cfg.max_segment_size_bytes 0 segs = segs :=
    greedyBatch_eq_self_of_total_le _ _ 0 (by simpa using hsum)
  have hsel : selectTierBatch cfg (tierSmall cfg segs) = some segs := by
    rw [hts]
    simp only [selectTierBatch, hgb]
    rw [if_pos helig]
  have hselL : selectTierBatch cfg (tierLarge cfg segs) = none := by
    rw [htl]
    exact selectTierBatch_nil_none cfg hmin
  have hrm : removeFirstMatching (isSmallSegment cfg) segs.length segs = [] :=
    removeFirstMatching_all _ _ fun s hs => decide_eq_true (hsmall s hs)
  simp only [stepSegments, hsel, hselL, applyTierBatch, hrm, List.nil_append,
    Nat.add_zero]

/-- If neither tier yields an eligible batch, the step leaves the segment list
of the index untouched and reports zero merged segments. -/
lemma stepSegments_none_none (cfg : CompactionConfig) (fresh : Nat)
    (segs : List Segment)
    (hS : selectTierBatch cfg (tierSmall cfg segs) = none)
    (hL : selectTierBatch cfg (tierLarge cfg segs) = none) :
    stepSegments cfg fresh segs = (segs, 0) := by
  simp only [stepSegments, hS, hL]

lemma stepIndex_of_stepSegments_id (cfg : CompactionConfig) (fresh : Nat)
    (idx : SearchIndex) (h : stepSegments cfg fresh idx.segments = (idx.segments, 0)) :
    stepIndex cfg fresh idx = (idx, 0) := by
  cases idx with
  | mk n st ss =>
    cases st <;> simp only [stepIndex, h]

/-- C1: for every Enabled index that, under a validated CompactionConfig
(which subsumes the default one), holds exactly min_compaction_segments small
segments whose cumulative size stays within max_segment_size_bytes, one call
to step merges exactly that batch into one new segment: the returned metrics
mapping equals the singleton mapping from the resolved index name to
min_compaction_segments and the segment count of the index after the step
is 1. -/
theorem c1_small_batch_merge (cfg : CompactionConfig) (fresh : Nat)
    (name : String) (segs : List Segment)
    (hmin : 1 ≤ cfg.min_compaction_segments)
    (hlen : segs.length = cfg.min_compaction_segments)
    (hsmall : ∀ s ∈ segs, s.byte_size < cfg.small_segment_threshold_bytes)
    (hsum : sumBy Segment.byte_size segs ≤ cfg.max_segment_size_bytes) :
    (step cfg fresh [⟨name, IndexState.enabled, segs⟩]).2
        = [(name, cfg.min_compaction_segments)] ∧
    (step cfg fresh [⟨name, IndexState.enabled, segs⟩]).1.map
        (fun i => i.segments.length) = [1] := by
  have hss := stepSegments_merge_all_small cfg fresh segs hmin (by omega)
    hsmall hsum
  simp only [step, stepAll, stepIndex, hss, hlen]
  rw [if_neg (by omega)]
  simp

theorem c1_small_batch_merge_witness :
    (step ⟨3, 1000, 100000⟩ 10 [⟨"idx", IndexState.enabled,
        [⟨1, 10, 1⟩, ⟨2, 10, 1⟩, ⟨3, 10, 1⟩]⟩]).2 = [("idx", 3)] ∧
    (step ⟨3, 1000, 100000⟩ 10 [⟨"idx", IndexState.enabled,
        [⟨1, 10, 1⟩, ⟨2, 10, 1⟩, ⟨3, 10, 1⟩]⟩]).1.map
        (fun i => i.segments.length) = [1] :=
  c1_small_batch_merge ⟨3, 1000, 100000⟩ 10 "idx"
    [⟨1, 10, 1⟩, ⟨2, 10, 1⟩, ⟨3, 10, 1⟩] (by decide) (by decide)
    (by decide) (by decide)

/-- C4: step enumerates indexes in state Enabled or Backfilling and skips
Disabled indexes: a Disabled index is returned untouched with no merged
count, a Backfilling index is processed exactly as an Enabled index with the
same segments, and a Backfilling index holding min_compaction_segments small
in-cap segments is merged exactly as in C1. -/
theorem c4_backfilling_like_enabled (cfg : CompactionConfig) (fresh : Nat)
    (name dname : String) (segs dsegs : List Segment)
    (hmin : 1 ≤ cfg.min_compaction_segments)
    (hlen : segs.length = cfg.min_compaction_segments)
    (hsmall : ∀ s ∈ segs, s.byte_size < cfg.small_segment_threshold_bytes)
    (hsum : sumBy Segment.byte_size segs ≤ cfg.max_segment_size_bytes) :
    stepIndex cfg fresh ⟨dname, IndexState.disabled, dsegs⟩
        = (⟨dname, IndexState.disabled, dsegs⟩, 0) ∧
    (stepIndex cfg fresh ⟨name, IndexState.backfilling, segs⟩).1.segments
        = (stepIndex cfg fresh ⟨name, IndexState.enabled, segs⟩).1.segments ∧
    (stepIndex cfg fresh ⟨name, IndexState.backfilling, segs⟩).2
        = (stepIndex cfg fresh ⟨name, IndexState.enabled, segs⟩).2 ∧
    (step cfg fresh [⟨name, IndexState.backfilling, segs⟩]).2
        = [(name, cfg.min_compaction_segments)] ∧
    (step cfg fresh [⟨name, IndexState.backfilling, segs⟩]).1.map
        (fun i => i.segments.length) = [1] := by
  have hss := stepSegments_merge_all_small cfg fresh segs hmin (by omega)
    hsmall hsum
  refine ⟨rfl, rfl, rfl, ?_, ?_⟩
  · simp only [step, stepAll, stepIndex, hss, hlen]
    rw [if_neg (by omega)]
  · simp only [step, stepAll, stepIndex, hss, hlen]
    simp

theorem c4_backfilling_like_enabled_witness :
    stepIndex ⟨3, 1000, 100000⟩ 10 ⟨"off", IndexState.disabled, [⟨9, 7, 2⟩]⟩
        = (⟨"off", IndexState.disabled, [⟨9, 7, 2⟩]⟩, 0) ∧
    (stepIndex ⟨3, 1000, 100000⟩ 10 ⟨"idx", IndexState.backfilling,
        [⟨1, 10, 1⟩, ⟨2, 10, 1⟩, ⟨3, 10, 1⟩]⟩).1.segments
      = (stepIndex ⟨3, 1000, 100000⟩ 10 ⟨"idx", IndexState.enabled,
        [⟨1, 10, 1⟩, ⟨2, 10, 1⟩, ⟨3, 10, 1⟩]⟩).1.segments ∧
    (stepIndex ⟨3, 1000, 100000⟩ 10 ⟨"idx", IndexState.backfilling,
        [⟨1, 10, 1⟩, ⟨2, 10, 1⟩, ⟨3, 10, 1⟩]⟩).2
      = (stepIndex ⟨3, 1000, 100000⟩ 10 ⟨"idx", IndexState.enabled,
        [⟨1, 10, 1⟩, ⟨2, 10, 1⟩, ⟨3, 10, 1⟩]⟩).2 ∧
    (step ⟨3, 1000, 100000⟩ 10 [⟨"idx", IndexState.backfilling,
        [⟨1, 10, 1⟩, ⟨2, 10, 1⟩, ⟨3, 10, 1⟩]⟩]).2 = [("idx", 3)] ∧
    (step ⟨3, 1000, 100000⟩ 10 [⟨"idx", IndexState.backfilling,
        [⟨1, 10, 1⟩, ⟨2, 10, 1⟩, ⟨3, 10, 1⟩]⟩]).1.map
        (fun i => i.segments.length) = [1] :=
  c4_backfilling_like_enabled ⟨3, 1000, 100000⟩ 10 "idx" "off"
    [⟨1, 10, 1⟩, ⟨2, 10, 1⟩, ⟨3, 10, 1⟩] [⟨9, 7, 2⟩] (by decide) (by decide)
    (by decide) (by decide)

/-- C6: once every tier of an index has fewer than min_compaction_segments
segments, a further step produces no metrics entry for that index and leaves
its segment list unchanged, whatever its state. -/
theorem c6_quiescent_below_min (cfg : CompactionConfig) (fresh : Nat)
    (name : String) (st : IndexState) (segs : List Segment)
    (h1 : (tierSmall cfg segs).length < cfg.min_compaction_segments)
    (h2 : (tierLarge cfg segs).length < cfg.min_compaction_segments) :
    step cfg fresh [⟨name, st, segs⟩] = ([⟨name, st, segs⟩], []) := by
  have hS := selectTierBatch_none_of_short cfg _ h1
  have hL := selectTierBatch_none_of_short cfg _ h2
  have hss := stepSegments_none_none cfg fresh segs hS hL
  have hsi := stepIndex_of_stepSegments_id cfg fresh ⟨name, st, segs⟩ hss
  simp only [step, stepAll, hsi]
  simp

theorem c6_quiescent_below_min_witness :
    step ⟨3, 1000, 100000⟩ 10 [⟨"idx", IndexState.enabled, [⟨1, 10, 5⟩]⟩]
      = ([⟨"idx", IndexState.enabled, [⟨1, 10, 5⟩]⟩], []) :=
  c6_quiescent_below_min ⟨3, 1000, 100000⟩ 10 "idx" IndexState.enabled
    [⟨1, 10, 5⟩] (by decide) (by decide)

/-- C3: if max_segment_size_bytes is zero then, under a validated config and
for every list of indexes with non-empty stored segments, no batch is ever
eligible: step returns an empty metrics mapping (no zero-valued entries) and
every segment list is unchanged. -/
theorem c3_zero_cap_disables_compaction (cfg : CompactionConfig) (fresh : Nat)
    (indexes : List SearchIndex)
    (hmax : cfg.max_segment_size_bytes = 0)
    (hmin : 1 ≤ cfg.min_compaction_segments)
    (hpos : ∀ idx ∈ indexes, ∀ s ∈ idx.segments, 0 < s.byte_size) :
    step cfg fresh indexes = (indexes, []) := by
  revert hpos
  induction indexes generalizing fresh with
  | nil => intro _; rfl
  | cons idx rest ih =>
    intro hpos
    have hposIdx : ∀ s ∈ idx.segments, 0 < s.byte_size :=
      hpos idx (List.mem_cons_self _ _)
    have hzS : greedyBatch 0 0 (tierSmall cfg idx.segments) = [] :=
      greedyBatch_nil_of_zero_cap (tierSmall cfg idx.segments)
        (fun s hs => hposIdx s (List.mem_filter.mp hs).1) 0
    have hzL : greedyBatch 0 0 (tierLarge cfg idx.segments) = [] :=
      greedyBatch_nil_of_zero_cap (tierLarge cfg idx.segments)
        (fun s hs => hposIdx s (List.mem_filter.mp hs).1) 0
    have hidx : stepIndex cfg fresh idx = (idx, 0) := by
      apply stepIndex_of_stepSegments_id
      apply stepSegments_none_none
      · simp only [selectTierBatch, hmax, hzS]
        rw [if_neg (by simp; omega)]
      · simp only [selectTierBatch, hmax, hzL]
        rw [if_neg (by simp; omega)]
    have hrest := ih (fresh + 2)
      (fun i hi s hs => hpos i (List.mem_cons_of_mem _ hi) s hs)
    simp only [step, stepAll] at hrest ⊢
    simp [hidx, hrest]

theorem c3_zero_cap_disables_compaction_witness :
    step ⟨3, 0, 0⟩ 10 [⟨"idx", IndexState.enabled,
        [⟨1, 5, 1⟩, ⟨2, 5, 1⟩, ⟨3, 5, 1⟩]⟩]
      = ([⟨"idx", IndexState.enabled, [⟨1, 5, 1⟩, ⟨2, 5, 1⟩, ⟨3, 5, 1⟩]⟩], []) :=
  c3_zero_cap_disables_compaction ⟨3, 0, 0⟩ 10
    [⟨"idx", IndexState.enabled, [⟨1, 5, 1⟩, ⟨2, 5, 1⟩, ⟨3, 5, 1⟩]⟩]
    rfl (by decide) (by decide)

/-- C7: constructing a CompactionConfig with min_compaction_segments zero is
rejected with a ConfigError, and any other triple of values is accepted as
given: no cross-field validation is performed beyond
min_compaction_segments being at least 1. -/
theorem c7_config_validation (m t x m2 t2 x2 : Nat)
    (h0 : m = 0) (h1 : 1 ≤ m2) :
    CompactionConfig.validate m t x
        = Except.error ConfigError.zeroMinCompactionSegments ∧
    CompactionConfig.validate m2 t2 x2 = Except.ok ⟨m2, t2, x2⟩ := by
  constructor
  · simp [CompactionConfig.validate, h0]
  · simp only [CompactionConfig.validate]
    rw [if_neg (by omega)]

theorem c7_config_validation_witness :
    CompactionConfig.validate 0 5 7
        = Except.error ConfigError.zeroMinCompactionSegments ∧
    CompactionConfig.validate 3 5 7 = Except.ok ⟨3, 5, 7⟩ :=
  c7_config_validation 0 5 7 3 5 7 rfl (by decide)

lemma tierSmall_eq_filter (cfg : CompactionConfig) (l : List Segment) :
    tierSmall cfg l = l.filter (isSmallSegment cfg) := rfl

lemma tierLarge_eq_filter (cfg : CompactionConfig) (l : List Segment) :
    tierLarge cfg l = l.filter (isLargeSegment cfg) := rfl

lemma isSmall_of_isLarge_false (cfg : CompactionConfig) (s : Segment)
    (h : isLargeSegment cfg s = true) : isSmallSegment cfg s = false := by
  simp only [isSmallSegment, isLargeSegment, decide_eq_true_eq,
    decide_eq_false_iff_not] at h ⊢
  omega

lemma greedyBatchSpec_holds (maxB : Nat) (tier : List Segment) :
    GreedyBatchSpec maxB tier := by
  refine ⟨greedyBatch_append_eq maxB tier 0, ?_, ?_⟩
  · simpa using greedyBatch_total_le maxB tier 0 (Nat.zero_le _)
  · intro x r h
    simpa using greedyBatch_next_exceeds maxB tier 0 x r h

/-- Committing one batch that is the oldest-first prefix of a tier conserves
the total document count of the whole segment list. -/
lemma sumBy_doc_applyTierBatch (p : Segment → Bool) (newId : Nat)
    (segs batch : List Segment)
    (hb : batch = (segs.filter p).take batch.length)
    (hk : batch.length ≤ (segs.filter p).length) :
    sumBy Segment.doc_count (applyTierBatch p newId segs batch)
      = sumBy Segment.doc_count segs := by
  have h := sumBy_filter_take_remove Segment.doc_count p segs batch.length hk
  rw [← hb] at h
  simp only [applyTierBatch, sumBy_append, sumBy_cons, sumBy_nil,
    mergeSegments]
  omega

/-- C2: for every segment list and CompactionConfig the selector partitions
the segments into the small tier (byte_size below the threshold) and the
large tier (byte_size at or above it), within each tier accumulates segments
oldest first while the running total plus the next byte size stays within
max_segment_size_bytes, selects at most that one batch per tier per step, and
discards a batch with fewer than min_compaction_segments segments, leaving
the segments of that tier untouched by the step. -/
theorem c2_selector_partition_greedy_discard (cfg : CompactionConfig)
    (fresh : Nat) (segs : List Segment) (s0 : Segment) :
    (s0 ∈ tierSmall cfg segs ↔
      s0 ∈ segs ∧ s0.byte_size < cfg.small_segment_threshold_bytes) ∧
    (s0 ∈ tierLarge cfg segs ↔
      s0 ∈ segs ∧ cfg.small_segment_threshold_bytes ≤ s0.byte_size) ∧
    (tierSmall cfg segs).length + (tierLarge cfg segs).length = segs.length ∧
    GreedyBatchSpec cfg.max_segment_size_bytes (tierSmall cfg segs) ∧
    GreedyBatchSpec cfg.max_segment_size_bytes (tierLarge cfg segs) ∧
    (selectTierBatch cfg (tierSmall cfg segs) = none ↔
      (greedyBatch cfg.max_segment_size_bytes 0 (tierSmall cfg segs)).length
        < cfg.min_compaction_segments) ∧
    (selectTierBatch cfg (tierLarge cfg segs) = none ↔
      (greedyBatch cfg.max_segment_size_bytes 0 (tierLarge cfg segs)).length
        < cfg.min_compaction_segments) ∧
    (selectTierBatch cfg (tierSmall cfg segs) = none → s0 ∈ segs →
      s0.byte_size < cfg.small_segment_threshold_bytes →
      s0 ∈ (stepSegments cfg fresh segs).1) ∧
    (selectTierBatch cfg (tierLarge cfg segs) = none → s0 ∈ segs →
      cfg.small_segment_threshold_bytes ≤ s0.byte_size →
      s0 ∈ (stepSegments cfg fresh segs).1) := by
  refine ⟨?_, ?_, tier_length_partition cfg segs, greedyBatchSpec_holds _ _,
    greedyBatchSpec_holds _ _, ?_, ?_, ?_, ?_⟩
  · simp [tierSmall, List.mem_filter, isSmallSegment]
  · simp [tierLarge, List.mem_filter, isLargeSegment]
  · simp only [selectTierBatch]
    split
    · next hcond => simp; omega
    · next hcond => simp; omega
  · simp only [selectTierBatch]
    split
    · next hcond => simp; omega
    · next hcond => simp; omega
  · intro hnone hmem hsm
    cases hcase : selectTierBatch cfg (tierLarge cfg segs) with
    | none =>
      simp only [stepSegments, hnone, hcase]
      exact hmem
    | some b =>
      simp only [stepSegments, hnone, hcase, applyTierBatch]
      refine List.mem_append_left _ ?_
      exact removeFirstMatching_mem _ _ _ hmem
        (by simp only [isLargeSegment, decide_eq_false_iff_not]; omega) _
  · intro hnone hmem hlg
    cases hcase : selectTierBatch cfg (tierSmall cfg segs) with
    | none =>
      simp only [stepSegments, hcase, hnone]
      exact hmem
    | some b =>
      simp only [stepSegments, hcase, hnone, applyTierBatch]
      refine List.mem_append_left _ ?_
      exact removeFirstMatching_mem _ _ _ hmem
        (by simp only [isSmallSegment, decide_eq_false_iff_not]; omega) _

theorem c2_selector_partition_greedy_discard_witness :
    ((⟨1, 10, 1⟩ : Segment) ∈ tierSmall ⟨3, 1000, 100000⟩ [⟨1, 10, 1⟩] ↔
      (⟨1, 10, 1⟩ : Segment) ∈ [(⟨1, 10, 1⟩ : Segment)] ∧
        (⟨1, 10, 1⟩ : Segment).byte_size < 1000) ∧
    ((⟨1, 10, 1⟩ : Segment) ∈ tierLarge ⟨3, 1000, 100000⟩ [⟨1, 10, 1⟩] ↔
      (⟨1, 10, 1⟩ : Segment) ∈ [(⟨1, 10, 1⟩ : Segment)] ∧
        1000 ≤ (⟨1, 10, 1⟩ : Segment).byte_size) ∧
    (tierSmall ⟨3, 1000, 100000⟩ [⟨1, 10, 1⟩]).length
        + (tierLarge ⟨3, 1000, 100000⟩ [⟨1, 10, 1⟩]).length
        = [(⟨1, 10, 1⟩ : Segment)].length ∧
    GreedyBatchSpec 100000 (tierSmall ⟨3, 1000, 100000⟩ [⟨1, 10, 1⟩]) ∧
    GreedyBatchSpec 100000 (tierLarge ⟨3, 1000, 100000⟩ [⟨1, 10, 1⟩]) ∧
    (selectTierBatch ⟨3, 1000, 100000⟩ (tierSmall ⟨3, 1000, 100000⟩
        [⟨1, 10, 1⟩]) = none ↔
      (greedyBatch 100000 0 (tierSmall ⟨3, 1000, 100000⟩
        [⟨1, 10, 1⟩])).length < 3) ∧
    (selectTierBatch ⟨3, 1000, 100000⟩ (tierLarge ⟨3, 1000, 100000⟩
        [⟨1, 10, 1⟩]) = none ↔
      (greedyBatch 100000 0 (tierLarge ⟨3, 1000, 100000⟩
        [⟨1, 10, 1⟩])).length < 3) ∧
    (selectTierBatch ⟨3, 1000, 100000⟩ (tierSmall ⟨3, 1000, 100000⟩
        [⟨1, 10, 1⟩]) = none → (⟨1, 10, 1⟩ : Segment) ∈
        [(⟨1, 10, 1⟩ : Segment)] →
      (⟨1, 10, 1⟩ : Segment).byte_size < 1000 →
      (⟨1, 10, 1⟩ : Segment) ∈ (stepSegments ⟨3, 1000, 100000⟩ 0
        [⟨1, 10, 1⟩]).1) ∧
    (selectTierBatch ⟨3, 1000, 100000⟩ (tierLarge ⟨3, 1000, 100000⟩
        [⟨1, 10, 1⟩]) = none → (⟨1, 10, 1⟩ : Segment) ∈
        [(⟨1, 10, 1⟩ : Segment)] →
      1000 ≤ (⟨1, 10, 1⟩ : Segment).byte_size →
      (⟨1, 10, 1⟩ : Segment) ∈ (stepSegments ⟨3, 1000, 100000⟩ 0
        [⟨1, 10, 1⟩]).1) :=
  c2_selector_partition_greedy_discard ⟨3, 1000, 100000⟩ 0 [⟨1, 10, 1⟩]
    ⟨1, 10, 1⟩

/-- C5: the merged segment of any batch carries a document count equal to the
sum of the document counts of the sources of the batch, and consequently one
step conserves the total document count of the segment list of an index. -/
theorem c5_doc_count_conservation (cfg : CompactionConfig) (fresh : Nat)
    (segs : List Segment) (newId : Nat) (batch : List Segment) :
    (mergeSegments newId batch).doc_count = sumBy Segment.doc_count batch ∧
    sumBy Segment.doc_count (stepSegments cfg fresh segs).1
      = sumBy Segment.doc_count segs := by
  refine ⟨rfl, ?_⟩
  cases hS : selectTierBatch cfg (tierSmall cfg segs) with
  | none =>
    cases hL : selectTierBatch cfg (tierLarge cfg segs) with
    | none => simp only [stepSegments, hS, hL]
    | some bL =>
      simp only [stepSegments, hS, hL]
      have hbl : bL = greedyBatch cfg.max_segment_size_bytes 0
          (segs.filter (isLargeSegment cfg)) := by
        simp only [selectTierBatch, tierLarge_eq_filter] at hL
        split at hL
        · injection hL with h
          exact h.symm
        · cases hL
      apply sumBy_doc_applyTierBatch
      · conv_lhs => rw [hbl, greedyBatch_take_eq]
        rw [← hbl]
      · rw [hbl]
        exact greedyBatch_length_le _ _ _
  | some bS =>
    have hbs : bS = greedyBatch cfg.max_segment_size_bytes 0
        (segs.filter (isSmallSegment cfg)) := by
      simp only [selectTierBatch, tierSmall_eq_filter] at hS
      split at hS
      · injection hS with h
        exact h.symm
      · cases hS
    have hstage1 : sumBy Segment.doc_count
        (applyTierBatch (isSmallSegment cfg) fresh segs bS)
        = sumBy Segment.doc_count segs := by
      apply sumBy_doc_applyTierBatch
      · conv_lhs => rw [hbs, greedyBatch_take_eq]
        rw [← hbs]
      · rw [hbs]
        exact greedyBatch_length_le _ _ _
    cases hL : selectTierBatch cfg (tierLarge cfg segs) with
    | none =>
      simp only [stepSegments, hS, hL]
      exact hstage1
    | some bL =>
      have hbl : bL = greedyBatch cfg.max_segment_size_bytes 0
          (segs.filter (isLargeSegment cfg)) := by
        simp only [selectTierBatch, tierLarge_eq_filter] at hL
        split at hL
        · injection hL with h
          exact h.symm
        · cases hL
      have hfl : (applyTierBatch (isSmallSegment cfg) fresh segs bS).filter
          (isLargeSegment cfg)
          = segs.filter (isLargeSegment cfg)
            ++ [mergeSegments fresh bS].filter (isLargeSegment cfg) := by
        simp only [applyTierBatch, List.filter_append]
        rw [removeFirstMatching_filter_disjoint (isSmallSegment cfg)
          (isLargeSegment cfg) (isSmall_of_isLarge_false cfg) segs bS.length]
      have hklA : bL.length ≤ (segs.filter (isLargeSegment cfg)).length := by
        rw [hbl]
        exact greedyBatch_length_le _ _ _
      have hA : bL = (segs.filter (isLargeSegment cfg)).take bL.length := by
        conv_lhs => rw [hbl, greedyBatch_take_eq]
        rw [← hbl]
      have hb2 : bL = ((applyTierBatch (isSmallSegment cfg) fresh segs
          bS).filter (isLargeSegment cfg)).take bL.length := by
        rw [hfl, List.take_append_of_le_length hklA, ← hA]
      have hk2 : bL.length ≤ ((applyTierBatch (isSmallSegment cfg) fresh segs
          bS).filter (isLargeSegment cfg)).length := by
        rw [hfl, List.length_append]
        omega
      simp only [stepSegments, hS, hL]
      have h2 := sumBy_doc_applyTierBatch (isLargeSegment cfg) (fresh + 1)
        (applyTierBatch (isSmallSegment cfg) fresh segs bS) bL hb2 hk2
      rw [h2]
      exact hstage1

end Compaction

namespace CryptoOps

/-- C8: for every rng and byte_length, get_random_values returns an error
exactly when byte_length exceeds 65536 and otherwise returns Ok with a byte
vector of length byte_length. -/
theorem c8_get_random_values_bounds (rng : Nat → Nat) (n m : Nat)
    (hn : n ≤ 65536) (hm : 65536 < m) :
    (∃ bs, get_random_values rng n = Except.ok bs ∧ bs.length = n) ∧
    (∃ e, get_random_values rng m = Except.error e) := by
  constructor
  · refine ⟨(List.range n).map (byteOf rng), ?_, by simp⟩
    simp [get_random_values, hn]
  · refine ⟨"byte_length must be at most 65536", ?_⟩
    simp only [get_random_values]
    rw [if_neg (by omega)]

theorem c8_get_random_values_bounds_witness :
    (∃ bs, get_random_values (fun _ => 0) 3 = Except.ok bs ∧ bs.length = 3) ∧
    (∃ e, get_random_values (fun _ => 0) 70000 = Except.error e) :=
  c8_get_random_values_bounds (fun _ => 0) 3 70000 (by omega) (by omega)

/-- C9: for every rng, random_uuid never returns an error and the returned
16-byte uuid has its version nibble (the high nibble of byte 6) equal to 4,
whatever the 16 bytes the rng produced. -/
theorem c9_random_uuid_version (rng : Nat → Nat) :
    ∃ u, random_uuid rng = Except.ok u ∧ u.length = 16 ∧ u.getD 6 0 / 16 = 4 := by
  refine ⟨withVersion ((List.range 16).map (byteOf rng)) 4, rfl, ?_, ?_⟩
  · simp [withVersion]
  · have hlen : 6 < ((List.range 16).map (byteOf rng)).length := by simp
    simp only [withVersion, List.getD_eq_getElem?_getD,
      List.getElem?_set_self hlen, Option.getD_some]
    omega

end CryptoOps

namespace Modules

lemma put_unauthorized (st : DbState) (identity : Identity)
    (path : ModulePath) (source : String) (spi : Option Nat)
    (smap : Option String) (ar : Option AnalyzedModule)
    (env : ModuleEnvironment)
    (ha : identity.is_admin = false) (hs : identity.is_system = false) :
    put st identity path source spi smap ar env
      = (st, Except.error "unauthorized put_module") := by
  simp [put, ha, hs]

lemma delete_unauthorized (st : DbState) (identity : Identity)
    (path : ModulePath)
    (ha : identity.is_admin = false) (hs : identity.is_system = false) :
    delete st identity path
      = (st, Except.error "unauthorized delete_module") := by
  simp [delete, ha, hs]

/-- With an unauthorized identity the module loop of apply never writes: it
either finishes without touching the state (nothing to put, nothing to
delete) or stops at the first put or delete with an error and the state as
read. -/
lemma applyModules_unauthorized (identity : Identity) (spi : Option Nat)
    (ha : identity.is_admin = false) (hs : identity.is_system = false)
    (modules : List ModuleConfig) (remaining added : List ModulePath)
    (ar : List (ModulePath × AnalyzedModule)) (st : DbState) :
    (applyModules identity spi modules remaining added ar st).1 = st ∧
    (modules ≠ [] ∨ remaining ≠ [] →
      ∃ e, (applyModules identity spi modules remaining added ar st).2
        = Except.error e) := by
  cases modules with
  | nil =>
    cases remaining with
    | nil =>
      refine ⟨rfl, ?_⟩
      intro h
      rcases h with h | h <;> simp at h
    | cons p rest =>
      have hd := delete_unauthorized st identity p ha hs
      refine ⟨?_, fun _ => ⟨"unauthorized delete_module", ?_⟩⟩
      · simp [applyModules, deleteAll, hd]
      · simp [applyModules, deleteAll, hd]
  | cons m rest =>
    cases hdeps : m.path.is_deps with
    | true =>
      have hp := put_unauthorized st identity m.path m.source spi
        m.source_map none m.environment ha hs
      refine ⟨?_, fun _ => ⟨"unauthorized put_module", ?_⟩⟩
      · simp [applyModules, hdeps, hp]
      · simp [applyModules, hdeps, hp]
    | false =>
      cases hla : lookupAnalyze ar m.path with
      | none =>
        refine ⟨?_, fun _ => ⟨"Missing analyze result for module", ?_⟩⟩
        · simp [applyModules, hdeps, hla]
        · simp [applyModules, hdeps, hla]
      | some a =>
        have hp := put_unauthorized st identity m.path m.source spi
          m.source_map (some a) m.environment ha hs
        refine ⟨?_, fun _ => ⟨"unauthorized put_module", ?_⟩⟩
        · simp [applyModules, hdeps, hla, hp]
        · simp [applyModules, hdeps, hla, hp]

/-- C10 counterexample: with an empty module list and an empty database, an
apply by an identity that is neither admin nor system returns Ok instead of
an error, refuting the claim that apply always errors for such a caller. -/
theorem c10_apply_unauthorized_ok_counterexample :
    (Identity.mk false false).is_admin = false ∧
    (Identity.mk false false).is_system = false ∧
    apply ⟨[], [], 0⟩ ⟨false, false⟩ [] none []
      = (⟨[], [], 0⟩, Except.ok ([], [])) :=
  ⟨rfl, rfl, rfl⟩

/-- C10 amended: put errors before any write whenever the identity is neither
admin nor system (for every path) or the path is under _system/ (for every
identity); apply errors before any write whenever a pushed module path is
under _system/, and, for an unauthorized identity, whenever it attempts at
least one put or delete (the module list is non-empty or some application
module exists); in every such case the database state is returned
unchanged. -/
theorem c10_put_apply_auth_guard (st st2 : DbState)
    (identity identity2 : Identity)
    (path path2 : ModulePath) (source : String) (spi : Option Nat)
    (smap : Option String) (ar : Option AnalyzedModule)
    (env : ModuleEnvironment) (modules modules2 : List ModuleConfig)
    (arl arl2 : List (ModulePath × AnalyzedModule))
    (ha : identity.is_admin = false) (hs : identity.is_system = false)
    (hsys : path.is_system = true)
    (hany : modules.any (fun c => c.path.is_system) = true)
    (hne2 : modules2 ≠ [] ∨ get_application_metadata st ≠ [])
    (hgam : get_application_metadata st2 = []) :
    put st identity path2 source spi smap ar env
      = (st, Except.error "unauthorized put_module") ∧
    (∃ e, put st identity2 path source spi smap ar env
      = (st, Except.error e)) ∧
    apply st identity2 modules spi arl
      = (st, Except.error
          "You cannot push functions under the _system/ directory.") ∧
    (apply st identity modules2 spi arl).1 = st ∧
    (∃ e, (apply st identity modules2 spi arl).2 = Except.error e) ∧
    apply st2 identity [] spi arl2 = (st2, Except.ok ([], [])) := by
  refine ⟨put_unauthorized st identity path2 source spi smap ar env ha hs,
    ?_, ?_, ?_, ?_, ?_⟩
  · cases hauth : (identity2.is_admin || identity2.is_system) with
    | false =>
      have hpair : identity2.is_admin = false ∧ identity2.is_system = false := by
        simpa using hauth
      exact ⟨"unauthorized put_module",
        put_unauthorized st identity2 path source spi smap ar env
          hpair.1 hpair.2⟩
    | true =>
      refine ⟨"You cannot push a function under _system/", ?_⟩
      simp [put, hauth, hsys]
  · simp [apply, hany]
  · cases hany2 : modules2.any (fun c => c.path.is_system) with
    | true => simp [apply, hany2]
    | false =>
      simp only [apply, hany2, Bool.false_eq_true, if_false]
      exact (applyModules_unauthorized identity spi ha hs modules2
        ((get_application_metadata st).map (fun e => e.2.path)) [] arl st).1
  · cases hany2 : modules2.any (fun c => c.path.is_system) with
    | true =>
      refine ⟨"You cannot push functions under the _system/ directory.", ?_⟩
      simp [apply, hany2]
    | false =>
      simp only [apply, hany2, Bool.false_eq_true, if_false]
      apply (applyModules_unauthorized identity spi ha hs modules2
        ((get_application_metadata st).map (fun e => e.2.path)) [] arl st).2
      rcases hne2 with h | h
      · exact Or.inl h
      · right
        intro hmap
        exact h (List.map_eq_nil_iff.mp hmap)
  · simp [apply, applyModules, deleteAll, hgam]

theorem c10_put_apply_auth_guard_witness :
    put ⟨[], [], 0⟩ ⟨false, false⟩ ⟨"other", false, false⟩ "src" none none
        none ModuleEnvironment.isolate
      = (⟨[], [], 0⟩, Except.error "unauthorized put_module") ∧
    (∃ e, put ⟨[], [], 0⟩ ⟨false, true⟩ ⟨"sys", true, false⟩ "src" none none
        none ModuleEnvironment.isolate
      = (⟨[], [], 0⟩, Except.error e)) ∧
    apply ⟨[], [], 0⟩ ⟨false, true⟩
        [⟨⟨"sys", true, false⟩, "src", none, ModuleEnvironment.isolate⟩] none []
      = (⟨[], [], 0⟩, Except.error
          "You cannot push functions under the _system/ directory.") ∧
    (apply ⟨[], [], 0⟩ ⟨false, false⟩
        [⟨⟨"app", false, false⟩, "src", none, ModuleEnvironment.isolate⟩]
        none []).1 = ⟨[], [], 0⟩ ∧
    (∃ e, (apply ⟨[], [], 0⟩ ⟨false, false⟩
        [⟨⟨"app", false, false⟩, "src", none, ModuleEnvironment.isolate⟩]
        none []).2 = Except.error e) ∧
    apply ⟨[(0, ⟨⟨"hidden", true, false⟩, 0, none,
        ModuleEnvironment.isolate, none⟩)], [], 1⟩ ⟨false, false⟩ [] none []
      = (⟨[(0, ⟨⟨"hidden", true, false⟩, 0, none,
          ModuleEnvironment.isolate, none⟩)], [], 1⟩, Except.ok ([], [])) :=
  c10_put_apply_auth_guard ⟨[], [], 0⟩
    ⟨[(0, ⟨⟨"hidden", true, false⟩, 0, none,
        ModuleEnvironment.isolate, none⟩)], [], 1⟩
    ⟨false, false⟩ ⟨false, true⟩
    ⟨"sys", true, false⟩ ⟨"other", false, false⟩ "src" none none none
    ModuleEnvironment.isolate
    [⟨⟨"sys", true, false⟩, "src", none, ModuleEnvironment.isolate⟩]
    [⟨⟨"app", false, false⟩, "src", none, ModuleEnvironment.isolate⟩] [] []
    rfl rfl rfl (by decide) (Or.inl (by simp)) (by decide)

end Modules
